import Mathlib

/-!
Verification of the markdown-to-document converter of the LVMH
competitor-analysis repository.

The converter is the line-classification loop of `generateWordDocument`
together with its paragraph builder `createParagraphFromLine` (source file
`src/unnamed/part_005`, first revision; a second, older revision of
`createParagraphFromLine` lives in `src/unnamed/part_004`).

We shallowly embed the JavaScript code over `List Char`:
  * JS `String.prototype.trim` (both-end whitespace removal) is `ltrim`;
  * JS `startsWith` / `endsWith` / `includes` are `lstartsWith` /
    `lendsWith` / `lincludes`;
  * JS `split(sep)` (which keeps empty segments and returns `[""]` on the
    empty string) is `splitOnChar`;
  * JS `substring(a, b)` (which swaps its arguments when `a > b` and
    clamps) is `jsSubstring`;
  * the regex split `line.split(/(\*\*.*?\*\*|__.*?__)/g)` is modelled by
    `findRegion` (leftmost match, `**` alternative first, lazy inner) and
    `splitFmt`.  The model treats every character uniformly; the JS `.`
    does not match a newline, but the converter only ever feeds the
    splitter lines obtained from `split('\n')`, which contain none.

Blocks follow the specification's data model (`Heading`, `Paragraph` of
spans, `ListItem`, `Table`, `Spacer`); each constructor records exactly
the payload the source pushes for the corresponding branch.  The source
renders level-3 headings as a bold inline run; we record them as
`Block.heading 3` per the data model.
-/

/-- An inline text run: the `docx` `TextRun` payload the source builds
(text, bold flag, underline flag). -/
structure Span where
  text : List Char
  bold : Bool
  underline : Bool
deriving DecidableEq, Repr

/-- Ordinal kind of a list item (bulleted vs auto-numbered). -/
inductive ListOrdinal where
  | bullet
  | numbered
deriving DecidableEq, Repr

/-- One structural unit of the output document, mirroring what the
source's classification loop pushes onto `children`. -/
inductive Block where
  | heading (level : Nat) (text : List Char)
  | paragraph (spans : List Span)
  | listItem (ordinal : ListOrdinal) (indent : Nat) (text : List Char)
  | table (headers : List (List Char)) (rows : List (List (List Char)))
  | spacer
deriving DecidableEq, Repr

/-- Helper for `lstartsWith`, recursing on the pattern (first
argument) so that an empty pattern reduces for every string. -/
def lstartsWithAux : List Char → List Char → Bool
  | [], _ => true
  | _ :: _, [] => false
  | q :: qs, c :: cs => (c == q) && lstartsWithAux qs cs

/-- JS `s.startsWith(p)` over char lists. -/
def lstartsWith (s p : List Char) : Bool :=
  lstartsWithAux p s

/-- JS `s.endsWith(p)` over char lists. -/
def lendsWith (s p : List Char) : Bool :=
  lstartsWith s.reverse p.reverse

/-- JS `s.includes(p)` over char lists (substring occurrence). -/
def lincludes (s p : List Char) : Bool :=
  lstartsWith s p ||
    match s with
    | [] => false
    | _ :: rest => lincludes rest p

/-- JS `s.trim()` over char lists: drop whitespace from both ends
(modelled with `Char.isWhitespace`; JS also trims some exotic Unicode
space characters, which the inputs at hand never contain). -/
def ltrim (s : List Char) : List Char :=
  ((s.dropWhile Char.isWhitespace).reverse.dropWhile Char.isWhitespace).reverse

/-- JS `s.split(sep)` for a one-character separator: keeps empty
segments, and `"".split(sep)` is `[""]`. -/
def splitOnChar (sep : Char) : List Char → List (List Char)
  | [] => [[]]
  | c :: rest =>
    if c = sep then [] :: splitOnChar sep rest
    else
      match splitOnChar sep rest with
      | [] => [[c]]
      | l :: ls => (c :: l) :: ls

/-- JS `s.substring(a, b)`: swaps the endpoints when `a > b` and clamps
them to the string length. -/
def jsSubstring (s : List Char) (a b : Nat) : List Char :=
  (s.take (max a b)).drop (min a b)

/-- The two delimiter markers of the inline-span splitter: `true` is
`**` (bold), `false` is `__` (bold + underline). -/
def markerChars (m : Bool) : List Char :=
  if m then ['*', '*'] else ['_', '_']

/-- Lazy search for the closing two-character marker `a b`: returns the
(shortest) text before the first occurrence and the text after it. -/
def findClose2 (a b : Char) : List Char → Option (List Char × List Char)
  | [] => none
  | x :: xs =>
    if lstartsWith (x :: xs) [a, b] then some ([], xs.tail)
    else
      match findClose2 a b xs with
      | some (inn, post) => some (x :: inn, post)
      | none => none

/-- Leftmost match of the regex `(\*\*.*?\*\*|__.*?__)`: returns the text
before the match, the marker, the (lazy, shortest) inner text and the
text after the match. -/
def findRegion : List Char → Option (List Char × Bool × List Char × List Char)
  | [] => none
  | x :: xs =>
    if lstartsWith (x :: xs) ['*', '*'] then
      match findClose2 '*' '*' xs.tail with
      | some (inn, post) => some ([], true, inn, post)
      | none =>
        match findRegion xs with
        | some (pre, m, inn, post) => some (x :: pre, m, inn, post)
        | none => none
    else if lstartsWith (x :: xs) ['_', '_'] then
      match findClose2 '_' '_' xs.tail with
      | some (inn, post) => some ([], false, inn, post)
      | none =>
        match findRegion xs with
        | some (pre, m, inn, post) => some (x :: pre, m, inn, post)
        | none => none
    else
      match findRegion xs with
      | some (pre, m, inn, post) => some (x :: pre, m, inn, post)
      | none => none

/-- Fuelled recursion for the regex split
`line.split(/(\*\*.*?\*\*|__.*?__)/g)`: alternating unmatched segments
and matched delimited regions (markers included), exactly as the JS
`split` with a capturing group returns them. -/
def splitFmtAux : Nat → List Char → List (List Char)
  | 0, s => [s]
  | fuel + 1, s =>
    match findRegion s with
    | none => [s]
    | some (pre, m, inn, post) =>
      pre :: (markerChars m ++ inn ++ markerChars m) :: splitFmtAux fuel post

/-- The regex split of a line (fuel instantiated; `s.length` bounds the
recursion depth since every matched region consumes four marker
characters). -/
def splitFmt (s : List Char) : List (List Char) :=
  splitFmtAux s.length s

/-- One part of the regex split mapped to a `TextRun`, exactly as the
source does it: a part that starts and ends with `**` becomes a bold
run of `part.substring(2, part.length - 2)`; one that starts and ends
with `__` becomes a bold+underline run; anything else is a plain run. -/
def partToSpan (p : List Char) : Span :=
  if lstartsWith p ['*', '*'] && lendsWith p ['*', '*'] then
    ⟨jsSubstring p 2 (p.length - 2), true, false⟩
  else if lstartsWith p ['_', '_'] && lendsWith p ['_', '_'] then
    ⟨jsSubstring p 2 (p.length - 2), true, true⟩
  else ⟨p, false, false⟩

/-- The function `createParagraphFromLine` of `src/unnamed/part_005` as a
line-to-spans function: if the line contains `**` or `__`, split on the
delimiter regex and map each part to a run; otherwise a single plain
run carrying the whole line. -/
def spansOfLine (line : List Char) : List Span :=
  if lincludes line ['*', '*'] || lincludes line ['_', '_'] then
    (splitFmt line).map partToSpan
  else [⟨line, false, false⟩]

/-- The character-scanning loop of `createParagraphFromLine` in
`src/unnamed/part_004`: walk the line, toggle the bold state at each
`**`, flush the accumulated text (when non-empty) before each toggle
and at the end.  `__` is not special in that revision. -/
def toggleRuns : List Char → Bool → List Char → List Span
  | [], b, cur => if cur.isEmpty then [] else [⟨cur, b, false⟩]
  | '*' :: '*' :: rest, b, cur =>
    (if cur.isEmpty then [] else [⟨cur, b, false⟩]) ++ toggleRuns rest (!b) []
  | c :: rest, b, cur => toggleRuns rest b (cur ++ [c])

/-- The function `createParagraphFromLine` of `src/unnamed/part_004` (the toggle-scan
revision) as a line-to-spans function. -/
def spansOfLineToggle (line : List Char) : List Span :=
  if lincludes line ['*', '*'] || lincludes line ['_', '_'] then
    toggleRuns line false []
  else [⟨line, false, false⟩]

/-- Modelled from the spec: "the original line with the formatting
markers (matched `**` and `__` delimiter pairs) stripped" — remove the
four marker characters of every matched delimited region (leftmost
match, lazy inner, same matching as the source's regex) and keep all
other text verbatim.  Fuelled recursion as in `splitFmtAux`. -/
def stripDelimsAux : Nat → List Char → List Char
  | 0, s => s
  | fuel + 1, s =>
    match findRegion s with
    | none => s
    | some (pre, _, inn, post) => pre ++ inn ++ stripDelimsAux fuel post

/-- Modelled from the spec: a line with its matched `**` / `__`
delimiter pairs stripped (fuel instantiated). -/
def stripDelims (s : List Char) : List Char :=
  stripDelimsAux s.length s

/-- Concatenation, in order, of the text fields of a span sequence. -/
def spanTextJoin (spans : List Span) : List Char :=
  (spans.map Span.text).flatten

/-- The transient parse state of one conversion call: the `inTable`
flag, the pending `tableHeaders` and `tableRows`, and the blocks pushed
so far (`children`, minus the fixed title/metadata preamble). -/
structure ConvState where
  inTable : Bool
  tableHeaders : List (List Char)
  tableRows : List (List (List Char))
  blocks : List Block
deriving DecidableEq, Repr

/-- The initial parse state of a conversion call. -/
def initState : ConvState := ⟨false, [], [], []⟩

/-- Table-cell extraction of the source: split the line on `|`, drop the
segments that are empty after trimming, trim the remaining segments. -/
def cellsOf (l : List Char) : List (List Char) :=
  ((splitOnChar '|' l).filter fun c => !(ltrim c).isEmpty).map ltrim

/-- The numbered-list regex `/^(\d+)\.\s+(.*)$/`: maximal leading digit
run, a literal dot, at least one whitespace character, and the captured
rest of the line (the whitespace run is greedy, the capture takes the
remainder). -/
def numberedMatch (l : List Char) : Option (List Char) :=
  let ds := l.takeWhile Char.isDigit
  if ds.isEmpty then none
  else
    match l.dropWhile Char.isDigit with
    | '.' :: r =>
      if (r.takeWhile Char.isWhitespace).isEmpty then none
      else some (r.dropWhile Char.isWhitespace)
    | _ => none

/-- The body of the classification loop of `generateWordDocument`
(`src/unnamed/part_005`), acting on the already-trimmed line: the
if/else-if chain over heading prefixes, table rows, the end-of-table
event, bullet and numbered list items, the empty line, and the
paragraph fallback. -/
def processCore (st : ConvState) (l : List Char) : ConvState :=
  if lstartsWith l ['#', ' '] then
    { st with blocks := st.blocks ++ [Block.heading 1 (l.drop 2)] }
  else if lstartsWith l ['#', '#', ' '] then
    { st with blocks := st.blocks ++ [Block.heading 2 (l.drop 3)] }
  else if lstartsWith l ['#', '#', '#', ' '] then
    { st with blocks := st.blocks ++ [Block.heading 3 (l.drop 4)] }
  else if lstartsWith l ['|'] && lendsWith l ['|'] then
    if !st.inTable then
      { st with inTable := true, tableHeaders := cellsOf l }
    else if lincludes l ['-', '-', '-'] then st
    else { st with tableRows := st.tableRows ++ [cellsOf l] }
  else if st.inTable && !lstartsWith l ['|'] then
    let st1 : ConvState :=
      if !st.tableHeaders.isEmpty && !st.tableRows.isEmpty then
        { st with inTable := false, tableHeaders := [], tableRows := [],
                  blocks := st.blocks ++ [Block.table st.tableHeaders st.tableRows] }
      else { st with inTable := false }
    if !l.isEmpty then
      { st1 with blocks := st1.blocks ++ [Block.paragraph (spansOfLine l)] }
    else st1
  else if lstartsWith l ['-', ' '] then
    { st with blocks := st.blocks ++ [Block.listItem .bullet 0 (l.drop 2)] }
  else if lstartsWith l [' ', ' ', '-', ' '] ||
      lstartsWith l [' ', ' ', ' ', ' ', '-', ' '] then
    let lvl := if lstartsWith l [' ', ' ', ' ', ' ', '-', ' '] then 2 else 1
    let txt := if lstartsWith l [' ', ' ', ' ', ' ', '-', ' '] then l.drop 6 else l.drop 4
    { st with blocks := st.blocks ++ [Block.listItem .bullet lvl txt] }
  else if lstartsWith l ['1', '.', ' '] || lstartsWith l ['2', '.', ' '] ||
      lstartsWith l ['3', '.', ' '] then
    match numberedMatch l with
    | some txt => { st with blocks := st.blocks ++ [Block.listItem .numbered 0 txt] }
    | none => st
  else if l.isEmpty then
    { st with blocks := st.blocks ++ [Block.spacer] }
  else
    { st with blocks := st.blocks ++ [Block.paragraph (spansOfLine l)] }

/-- One loop iteration: the source trims the raw line
(`const line = lines[i].trim()`) before classifying it. -/
def processLine (st : ConvState) (raw : List Char) : ConvState :=
  processCore st (ltrim raw)

/-- The whole conversion over a character list: split the input on
newlines, run the classification loop, and perform the final
end-of-input table flush (guarded by non-empty pending headers and
rows, exactly as the source). -/
def convertChars (input : List Char) : List Block :=
  let st := (splitOnChar '\n' input).foldl processLine initState
  if st.inTable && !st.tableHeaders.isEmpty && !st.tableRows.isEmpty then
    st.blocks ++ [Block.table st.tableHeaders st.tableRows]
  else st.blocks

/-- The converter on a string input (`convert` of the spec): the block
sequence the classification loop of `generateWordDocument` produces. -/
def generateBlocks (s : String) : List Block :=
  convertChars s.data

/-- The raw condition of classifier branch `k` (0-based, in source
order) for state `st` and raw line `raw`, before priority is applied:
branch 9 is the unconditional paragraph fallback, and there is no
branch beyond it. -/
def branchCond (st : ConvState) (raw : List Char) : Nat → Bool
  | 0 => lstartsWith (ltrim raw) ['#', ' ']
  | 1 => lstartsWith (ltrim raw) ['#', '#', ' ']
  | 2 => lstartsWith (ltrim raw) ['#', '#', '#', ' ']
  | 3 => lstartsWith (ltrim raw) ['|'] && lendsWith (ltrim raw) ['|']
  | 4 => st.inTable && !lstartsWith (ltrim raw) ['|']
  | 5 => lstartsWith (ltrim raw) ['-', ' ']
  | 6 => lstartsWith (ltrim raw) [' ', ' ', '-', ' '] ||
      lstartsWith (ltrim raw) [' ', ' ', ' ', ' ', '-', ' ']
  | 7 => lstartsWith (ltrim raw) ['1', '.', ' '] ||
      lstartsWith (ltrim raw) ['2', '.', ' '] ||
      lstartsWith (ltrim raw) ['3', '.', ' ']
  | 8 => (ltrim raw).isEmpty
  | 9 => true
  | _ + 10 => false

/-- The `Table` blocks of a block sequence, in order. -/
def tablesOf (bs : List Block) : List Block :=
  bs.filter fun b =>
    match b with
    | Block.table _ _ => true
    | _ => false

/-- Every `Table` block of the sequence has at least one header cell and
at least one data row. -/
def goodBlocks (bs : List Block) : Prop :=
  ∀ hs rs, Block.table hs rs ∈ bs → hs ≠ [] ∧ rs ≠ []

/-- A markdown table line `| x | y |` as the source text builds it. -/
def rowLineC (x y : List Char) : List Char :=
  '|' :: ' ' :: (x ++ ' ' :: '|' :: ' ' :: (y ++ [' ', '|']))

/-- A complete two-column three-row markdown table (header row,
separator row, three data rows), as a newline-joined character list. -/
def tableInputC (h1 h2 a b c d e f : List Char) : List Char :=
  rowLineC h1 h2 ++ '\n' ::
    ('|' :: " --- | --- |".data ++ '\n' ::
      (rowLineC a b ++ '\n' :: (rowLineC c d ++ '\n' :: rowLineC e f)))

/-- A table cell is usable in a constructed table line: it contains no
`|` and no newline, and is non-empty after trimming. -/
def goodCell (x : List Char) : Prop :=
  '|' ∉ x ∧ '\n' ∉ x ∧ ltrim x ≠ []

/-! ## Theorems -/

/-! ### Helper lemmas -/

theorem dropWhile_head_not {p : Char → Bool} {l : List Char} {c : Char}
    {t : List Char} (h : l.dropWhile p = c :: t) : p c = false := by
  induction l with
  | nil => simp at h
  | cons a l ih =>
    by_cases ha : p a
    · rw [List.dropWhile_cons_of_pos ha] at h
      exact ih h
    · rw [List.dropWhile_cons_of_neg ha] at h
      cases h
      simpa using ha

theorem dropWhile_is_suffix (p : Char → Bool) (l : List Char) :
    ∃ w, l = w ++ l.dropWhile p :=
  ⟨l.takeWhile p, (List.takeWhile_append_dropWhile p l).symm⟩

/-- Every non-empty trim result starts with a non-whitespace
character. -/
theorem ltrim_cons {raw : List Char} {c : Char} {t : List Char}
    (h : ltrim raw = c :: t) : c.isWhitespace = false := by
  unfold ltrim at h
  obtain ⟨w, hw⟩ :=
    dropWhile_is_suffix Char.isWhitespace (raw.dropWhile Char.isWhitespace).reverse
  have hinner :
      List.dropWhile Char.isWhitespace (raw.dropWhile Char.isWhitespace).reverse =
        (c :: t).reverse := by
    have := congrArg List.reverse h
    simpa using this
  rw [hinner] at hw
  have hdw : raw.dropWhile Char.isWhitespace = c :: (t ++ w.reverse) := by
    have := congrArg List.reverse hw
    simpa using this
  exact dropWhile_head_not hdw

theorem lstartsWith_iff {s p : List Char} :
    lstartsWith s p = true ↔ ∃ t, s = p ++ t := by
  induction p generalizing s with
  | nil => simp [lstartsWith, lstartsWithAux]
  | cons a ps ih =>
    cases s with
    | nil =>
      simp only [lstartsWith, lstartsWithAux, List.cons_append]
      constructor
      · intro h; cases h
      · rintro ⟨t, ht⟩; cases ht
    | cons c cs =>
      rw [show lstartsWith (c :: cs) (a :: ps) = ((c == a) && lstartsWith cs ps)
          from rfl, Bool.and_eq_true, beq_iff_eq, ih]
      constructor
      · rintro ⟨rfl, t, rfl⟩
        exact ⟨t, rfl⟩
      · rintro ⟨t, ht⟩
        injection ht with h1 h2
        exact ⟨h1, t, h2⟩

theorem ltrim_no_leading_space (raw : List Char) (p : List Char) :
    lstartsWith (ltrim raw) (' ' :: p) = false := by
  rcases h : ltrim raw with _ | ⟨c, t⟩
  · rfl
  · have hc : c.isWhitespace = false := ltrim_cons h
    have hcs : (c == ' ') = false := by
      by_contra hcc
      rw [Bool.not_eq_false, beq_iff_eq] at hcc
      subst hcc
      exact absurd hc (by decide)
    simp [lstartsWith, lstartsWithAux, hcs]

/-- Claim C10: invoked on the empty string, the converter returns a
block sequence containing exactly one `Spacer` block and nothing else:
splitting the empty string on newlines yields one empty line, which the
empty-line rule classifies as a `Spacer`, so the output is never the
empty sequence. -/
theorem empty_input_single_spacer : generateBlocks "" = [Block.spacer] := by
  decide

/-- Claim C2 counterexample: on the input
`# Report / | Brand | Type | / | --- | --- | / | Dior | Cash | /
| Chanel | Voucher | / (blank) / - Strong performance` the converter
emits `Heading`, `Table`, `ListItem` — the blank line that ends the
table context is consumed by the end-of-table branch and yields no
`Spacer`, so the claimed four-block sequence (with a `Spacer` between
the `Table` and the `ListItem`) is not produced. -/
theorem report_scenario_spacer_counterexample :
    generateBlocks "# Report\n| Brand | Type |\n| --- | --- |\n| Dior | Cash |\n| Chanel | Voucher |\n\n- Strong performance" =
      [Block.heading 1 "Report".data,
       Block.table ["Brand".data, "Type".data]
         [["Dior".data, "Cash".data], ["Chanel".data, "Voucher".data]],
       Block.listItem .bullet 0 "Strong performance".data] ∧
    generateBlocks "# Report\n| Brand | Type |\n| --- | --- |\n| Dior | Cash |\n| Chanel | Voucher |\n\n- Strong performance" ≠
      [Block.heading 1 "Report".data,
       Block.table ["Brand".data, "Type".data]
         [["Dior".data, "Cash".data], ["Chanel".data, "Voucher".data]],
       Block.spacer,
       Block.listItem .bullet 0 "Strong performance".data] := by
  constructor
  · decide
  · decide

/-- Claim C2 (amended): for the input text consisting of the lines
`# Report`, `| Brand | Type |`, `| --- | --- |`, `| Dior | Cash |`,
`| Chanel | Voucher |`, an empty line, and `- Strong performance`, the
converter produces exactly `Heading(1,"Report")`,
`Table(["Brand","Type"], [["Dior","Cash"],["Chanel","Voucher"]])`,
`ListItem(bullet, 0, "Strong performance")`: the blank line that ends
the table context is consumed by the end-of-table branch (its
non-empty-line paragraph step does not fire) and yields no `Spacer`. -/
theorem report_scenario_blocks :
    generateBlocks "# Report\n| Brand | Type |\n| --- | --- |\n| Dior | Cash |\n| Chanel | Voucher |\n\n- Strong performance" =
      [Block.heading 1 "Report".data,
       Block.table ["Brand".data, "Type".data]
         [["Dior".data, "Cash".data], ["Chanel".data, "Voucher".data]],
       Block.listItem .bullet 0 "Strong performance".data] := by
  decide

/-- Claim C3 counterexample: with a table context open (headers
`["A","B"]`, one pending row) the line `### Note` does not end the
table: the converter emits the level-3 heading first and the `Table`
block only later (here at end of input), so the output is
`[Heading 3 "Note", Table]` and not the claimed
`[Table, Heading 3 "Note"]`. -/
theorem heading_after_table_counterexample :
    generateBlocks "| A | B |\n| --- | --- |\n| x | y |\n### Note" =
      [Block.heading 3 "Note".data,
       Block.table ["A".data, "B".data] [["x".data, "y".data]]] ∧
    generateBlocks "| A | B |\n| --- | --- |\n| x | y |\n### Note" ≠
      [Block.table ["A".data, "B".data] [["x".data, "y".data]],
       Block.heading 3 "Note".data] := by
  constructor
  · decide
  · decide

/-- Claim C5 counterexample: the line `4. item` matches the numbered-list
regex `^\d+\.\s+.*` (the embedded `numberedMatch` captures `item`) and
is captured by no higher-priority rule, yet the converter classifies it
as a plain paragraph, not as `ListItem{numbered, indent 0, "item"}`. -/
theorem numbered_four_counterexample :
    numberedMatch "4. item".data = some "item".data ∧
    generateBlocks "4. item" = [Block.paragraph [⟨"4. item".data, false, false⟩]] ∧
    generateBlocks "4. item" ≠ [Block.listItem .numbered 0 "item".data] := by
  refine ⟨by decide, by decide, by decide⟩

/-- Claim C9: the two paragraph-builder revisions are not equivalent:
on the line `a**b` (an opening `**` with no matching close) the
regex-split revision (`src/unnamed/part_005`) keeps the entire
remainder, delimiters included, as one literal plain span, while the
toggle-scan revision (`src/unnamed/part_004`) drops the `**` marker and
styles the remainder of the line as bold. -/
theorem revisions_differ :
    spansOfLine "a**b".data = [⟨"a**b".data, false, false⟩] ∧
    spansOfLineToggle "a**b".data =
      [⟨"a".data, false, false⟩, ⟨"b".data, true, false⟩] ∧
    spansOfLine "a**b".data ≠ spansOfLineToggle "a**b".data := by
  refine ⟨by decide, by decide, by decide⟩

/-- Claim C7 counterexample: the line `***` is classified as a
paragraph, contains no matched delimiter pair (so the line with markers
stripped is `***` itself), yet the emitted span sequence is a single
bold span `*`: the JS `substring(2, length - 2)` argument swap turns the
unmatched part `***` into `*`, losing text. -/
theorem span_concat_counterexample :
    generateBlocks "***" = [Block.paragraph [⟨['*'], true, false⟩]] ∧
    stripDelims "***".data = "***".data ∧
    spanTextJoin (spansOfLine "***".data) ≠ stripDelims "***".data := by
  refine ⟨by decide, by decide, by decide⟩

/-- Claim C8 counterexample: the input is a well-formed 2-column, 3-row
markdown table (every cell non-empty after trimming) whose first data
cell is `x---y`; because the source skips any in-table pipe line
containing `---` as a separator row, that data row is dropped and the
single emitted `Table` block has 2 rows, not 3. -/
theorem table_roundtrip_counterexample :
    generateBlocks "| A | B |\n| --- | --- |\n| x---y | c |\n| d | e |\n| f | g |" =
      [Block.table ["A".data, "B".data] [["d".data, "e".data], ["f".data, "g".data]]] ∧
    [["d".data, "e".data], ["f".data, "g".data]].length ≠ 3 := by
  refine ⟨by decide, by decide⟩

/-- Claim C6 (code bug evaluation): the source trims every line before
classifying it, so no trimmed line can start with a space and the
nested-bullet branch (`'  - '` / `'    - '`, indent 1 / 2) is
unreachable; the inputs `  - item` and `    - item` are classified by
the plain-bullet rule as `ListItem{bullet, indent 0, "item"}`. -/
theorem nested_bullet_dead_branch :
    (∀ raw : List Char, lstartsWith (ltrim raw) [' ', ' ', '-', ' '] = false) ∧
    generateBlocks "  - item" = [Block.listItem .bullet 0 "item".data] ∧
    generateBlocks "  - item" ≠ [Block.listItem .bullet 1 "item".data] ∧
    generateBlocks "    - item" = [Block.listItem .bullet 0 "item".data] := by
  refine ⟨?_, by decide, by decide, by decide⟩
  intro raw
  exact ltrim_no_leading_space raw _

/-- Claim C1: the classification is total and unambiguous: for every
parse state and every raw input line there is exactly one classifier
branch `k` whose raw condition holds while all higher-priority
conditions fail (branch 9, the paragraph fallback, is unconditional, so
no line is left unclassified and no error path exists); in particular
the converter returns a block sequence on the empty string, on pure
whitespace and on a string containing only table-separator syntax. -/
theorem classifier_exhaustive_unique :
    (∀ (st : ConvState) (raw : List Char),
      ∃! k : Nat, branchCond st raw k = true ∧
        ∀ j < k, branchCond st raw j = false) ∧
    generateBlocks "   " = [Block.spacer] ∧
    generateBlocks "| --- |" = [] := by
  refine ⟨fun st raw => ?_, by decide, by decide⟩
  classical
  have hex : ∃ k, branchCond st raw k = true := ⟨9, rfl⟩
  have hk0 : branchCond st raw (Nat.find hex) = true := Nat.find_spec hex
  have hmin : ∀ j < Nat.find hex, branchCond st raw j = false := by
    intro j hj
    have := Nat.find_min hex hj
    simpa using this
  refine ⟨Nat.find hex, ⟨hk0, hmin⟩, ?_⟩
  rintro y ⟨hy, hymin⟩
  rcases lt_trichotomy y (Nat.find hex) with h | h | h
  · exact absurd hy (by simp [hmin y h])
  · exact h
  · exact absurd hk0 (by simp [hymin _ h])

/-- Claim C3 (amended): a `### `-prefixed line encountered while a table
context is open is classified as a level-3 heading (rendered as bold
inline text), not as a table row — but it does not end the table: the
pending headers and rows are left untouched and are flushed only later
(at the next non-pipe, non-heading line or at end of input), so the
`Table` block appears after the heading, as the concrete run shows. -/
theorem heading_in_table_keeps_table :
    (∀ (st : ConvState) (raw : List Char),
        st.inTable = true →
        lstartsWith (ltrim raw) ['#', '#', '#', ' '] = true →
        processLine st raw =
          { st with blocks :=
              st.blocks ++ [Block.heading 3 ((ltrim raw).drop 4)] }) ∧
    generateBlocks "| A | B |\n| --- | --- |\n| x | y |\n### Note" =
      [Block.heading 3 "Note".data,
       Block.table ["A".data, "B".data] [["x".data, "y".data]]] := by
  constructor
  · intro st raw _ hstart
    obtain ⟨t, ht⟩ := lstartsWith_iff.mp hstart
    unfold processLine
    rw [ht]
    rfl
  · decide

/-- Claim C3 witness: a concrete instance of the general statement, with
an open table context and the line `### Note`. -/
theorem heading_in_table_keeps_table_witness :
    processLine ⟨true, ["A".data], [["x".data]], []⟩ "### Note".data =
      ⟨true, ["A".data], [["x".data]], [Block.heading 3 "Note".data]⟩ :=
  heading_in_table_keeps_table.1 ⟨true, ["A".data], [["x".data]], []⟩
    "### Note".data rfl (by decide)

theorem lstartsWith_cons_cons (d q : Char) (rest p : List Char) :
    lstartsWith (d :: rest) (q :: p) = ((d == q) && lstartsWith rest p) := rfl

theorem digit_head_not {d c : Char} (hd : d.isDigit = true)
    (hc : c.isDigit = false) : (d == c) = false := by
  by_contra h
  rw [Bool.not_eq_false, beq_iff_eq] at h
  subst h
  rw [hd] at hc
  cases hc

theorem numberedMatch_head_digit {d : Char} {rest : List Char}
    (h : (numberedMatch (d :: rest)).isSome = true) : d.isDigit = true := by
  by_contra hdc
  rw [Bool.not_eq_true] at hdc
  have htw : (d :: rest).takeWhile Char.isDigit = [] := by
    rw [List.takeWhile_cons, if_neg (by simp [hdc])]
  unfold numberedMatch at h
  rw [htw] at h
  simp at h

/-- Claim C5 (amended): only lines whose trimmed form starts with
`1. `, `2. ` or `3. ` are classified as numbered list items (when no
higher-priority rule captures them, in particular outside an open table
context); for those, the numeric prefix is discarded and the emitted
block is `ListItem{numbered, indent 0}` carrying the text after the
whitespace run.  Every line matching the numbered-list regex
`^\d+\.\s+.*` with any other numeric prefix (outside an open table
context) falls through to the paragraph rule, e.g. `12. item`. -/
theorem numbered_prefix_123 :
    (∀ (st : ConvState) (raw : List Char),
        st.inTable = false →
        (lstartsWith (ltrim raw) ['1', '.', ' '] = true ∨
         lstartsWith (ltrim raw) ['2', '.', ' '] = true ∨
         lstartsWith (ltrim raw) ['3', '.', ' '] = true) →
        processLine st raw =
          { st with blocks := st.blocks ++
              [Block.listItem .numbered 0
                (((ltrim raw).drop 2).dropWhile Char.isWhitespace)] }) ∧
    (∀ (st : ConvState) (raw : List Char),
        st.inTable = false →
        (numberedMatch (ltrim raw)).isSome = true →
        lstartsWith (ltrim raw) ['1', '.', ' '] = false →
        lstartsWith (ltrim raw) ['2', '.', ' '] = false →
        lstartsWith (ltrim raw) ['3', '.', ' '] = false →
        processLine st raw =
          { st with blocks := st.blocks ++
              [Block.paragraph (spansOfLine (ltrim raw))] }) ∧
    generateBlocks "12. item" =
      [Block.paragraph [⟨"12. item".data, false, false⟩]] := by
  refine ⟨?_, ?_, by decide⟩
  · intro st raw hin hstart
    obtain ⟨inT, hs, rs, bs⟩ := st
    have hin' : inT = false := hin
    subst hin'
    rcases hstart with h | h | h <;>
      · obtain ⟨t, ht⟩ := lstartsWith_iff.mp h
        unfold processLine
        rw [ht]
        rfl
  · intro st raw hin hmatch h1 h2 h3
    obtain ⟨inT, hs, rs, bs⟩ := st
    have hin' : inT = false := hin
    subst hin'
    cases hl : ltrim raw with
    | nil =>
      rw [hl] at hmatch
      exact absurd hmatch (by decide)
    | cons d rest =>
      rw [hl] at hmatch h1 h2 h3
      have hd : d.isDigit = true := numberedMatch_head_digit hmatch
      have e0 : lstartsWith (d :: rest) ['#', ' '] = false := by
        rw [lstartsWith_cons_cons, digit_head_not hd (by decide), Bool.false_and]
      have e1 : lstartsWith (d :: rest) ['#', '#', ' '] = false := by
        rw [lstartsWith_cons_cons, digit_head_not hd (by decide), Bool.false_and]
      have e2 : lstartsWith (d :: rest) ['#', '#', '#', ' '] = false := by
        rw [lstartsWith_cons_cons, digit_head_not hd (by decide), Bool.false_and]
      have e3 : lstartsWith (d :: rest) ['|'] = false := by
        rw [lstartsWith_cons_cons, digit_head_not hd (by decide), Bool.false_and]
      have e5 : lstartsWith (d :: rest) ['-', ' '] = false := by
        rw [lstartsWith_cons_cons, digit_head_not hd (by decide), Bool.false_and]
      have e6a : lstartsWith (d :: rest) [' ', ' ', '-', ' '] = false := by
        rw [lstartsWith_cons_cons, digit_head_not hd (by decide), Bool.false_and]
      have e6b : lstartsWith (d :: rest) [' ', ' ', ' ', ' ', '-', ' '] = false := by
        rw [lstartsWith_cons_cons, digit_head_not hd (by decide), Bool.false_and]
      unfold processLine processCore
      rw [hl, e0, e1, e2, e3, e5, e6a, e6b, h1, h2, h3]
      rfl

/-- Claim C5 witness: concrete instances of both directions — the line
`2.  second` becomes a numbered list item (extra whitespace after the
dot is eaten by the greedy `\s+`), and the regex-matching line
`4. item` becomes a paragraph. -/
theorem numbered_prefix_123_witness :
    processLine ⟨false, [], [], []⟩ "2.  second".data =
      ⟨false, [], [], [Block.listItem .numbered 0 "second".data]⟩ ∧
    processLine ⟨false, [], [], []⟩ "4. item".data =
      ⟨false, [], [], [Block.paragraph [⟨"4. item".data, false, false⟩]]⟩ := by
  constructor
  · exact numbered_prefix_123.1 ⟨false, [], [], []⟩ "2.  second".data rfl
      (Or.inr (Or.inl (by decide)))
  · have h := numbered_prefix_123.2.1 ⟨false, [], [], []⟩ "4. item".data rfl
      (by decide) (by decide) (by decide) (by decide)
    rw [h]
    decide

theorem goodBlocks_nil : goodBlocks [] := by
  intro hs rs hmem
  cases hmem

theorem goodBlocks_append {bs : List Block} {b : Block}
    (hbs : goodBlocks bs)
    (hb : ∀ hs rs, b = Block.table hs rs → hs ≠ [] ∧ rs ≠ []) :
    goodBlocks (bs ++ [b]) := by
  intro hs rs hmem
  rcases List.mem_append.mp hmem with h | h
  · exact hbs hs rs h
  · exact hb hs rs (List.mem_singleton.mp h).symm

theorem goodBlocks_append_nontable {bs : List Block} {b : Block}
    (hbs : goodBlocks bs)
    (hb : ∀ hs rs, b ≠ Block.table hs rs) :
    goodBlocks (bs ++ [b]) :=
  goodBlocks_append hbs fun hs rs h => absurd h (hb hs rs)

theorem isEmpty_false_ne_nil {α : Type} {l : List α}
    (h : l.isEmpty = false) : l ≠ [] := by
  cases l with
  | nil => cases h
  | cons a l => exact List.cons_ne_nil a l

/-- One classification step preserves the table invariant: every
`Table` block ever pushed is guarded by non-empty pending headers and
rows. -/
theorem processCore_goodBlocks (st : ConvState) (l : List Char)
    (h : goodBlocks st.blocks) : goodBlocks (processCore st l).blocks := by
  unfold processCore
  split
  · exact goodBlocks_append_nontable h (by intro hs rs hne; cases hne)
  · split
    · exact goodBlocks_append_nontable h (by intro hs rs hne; cases hne)
    · split
      · exact goodBlocks_append_nontable h (by intro hs rs hne; cases hne)
      · split
        · split
          · exact h
          · split
            · exact h
            · exact h
        · split
          · -- end-of-table branch
            dsimp only
            by_cases hg : (!st.tableHeaders.isEmpty && !st.tableRows.isEmpty) = true
            · rw [if_pos hg]
              rcases Bool.and_eq_true_iff.mp hg with ⟨hg1, hg2⟩
              have hflush : goodBlocks
                  (st.blocks ++ [Block.table st.tableHeaders st.tableRows]) := by
                refine goodBlocks_append h ?_
                intro hs rs hne
                injection hne with h1 h2
                subst h1; subst h2
                exact ⟨isEmpty_false_ne_nil (by simpa using hg1),
                  isEmpty_false_ne_nil (by simpa using hg2)⟩
              split
              · exact goodBlocks_append_nontable hflush
                  (by intro hs rs hne; cases hne)
              · exact hflush
            · rw [if_neg hg]
              split
              · exact goodBlocks_append_nontable h
                  (by intro hs rs hne; cases hne)
              · exact h
          · split
            · exact goodBlocks_append_nontable h (by intro hs rs hne; cases hne)
            · split
              · exact goodBlocks_append_nontable h
                  (by intro hs rs hne; cases hne)
              · split
                · split
                  · exact goodBlocks_append_nontable h
                      (by intro hs rs hne; cases hne)
                  · exact h
                · split
                  · exact goodBlocks_append_nontable h
                      (by intro hs rs hne; cases hne)
                  · exact goodBlocks_append_nontable h
                      (by intro hs rs hne; cases hne)

/-- The whole conversion only ever emits `Table` blocks with non-empty
headers and non-empty rows. -/
theorem convertChars_goodBlocks (input : List Char) :
    goodBlocks (convertChars input) := by
  unfold convertChars
  have hfold : ∀ (lines : List (List Char)) (st : ConvState),
      goodBlocks st.blocks →
      goodBlocks ((lines.foldl processLine st).blocks) := by
    intro lines
    induction lines with
    | nil => intro st h; exact h
    | cons a ls ih =>
      intro st h
      exact ih _ (processCore_goodBlocks st (ltrim a) h)
  have hbase := hfold (splitOnChar '\n' input) initState goodBlocks_nil
  dsimp only
  split
  case isTrue hg =>
    rcases Bool.and_eq_true_iff.mp hg with ⟨hg1, hg2⟩
    rcases Bool.and_eq_true_iff.mp hg1 with ⟨_, hg1b⟩
    refine goodBlocks_append hbase ?_
    intro hs rs hne
    injection hne with h1 h2
    subst h1; subst h2
    exact ⟨isEmpty_false_ne_nil (by simpa using hg1b),
      isEmpty_false_ne_nil (by simpa using hg2)⟩
  case isFalse => exact hbase

/-- Claim C4: a table context that ends with no pending data rows or no
pending headers emits nothing and raises nothing: every `Table` block
the converter ever emits has at least one header cell and at least one
data row, and the dangling-table input consisting of a header row and a
separator row only produces no block at all (in particular zero `Table`
blocks). -/
theorem tables_nonempty_and_dangling_dropped :
    (∀ (s : String) (hs : List (List Char)) (rs : List (List (List Char))),
        Block.table hs rs ∈ generateBlocks s → hs ≠ [] ∧ rs ≠ []) ∧
    generateBlocks "| A | B |\n| --- | --- |" = [] := by
  constructor
  · intro s hs rs hmem
    exact convertChars_goodBlocks s.data hs rs hmem
  · decide

/-- Claim C4 witness: the general statement applied to a concrete input
whose output contains a table block. -/
theorem tables_nonempty_witness :
    ["A".data, "B".data] ≠ ([] : List (List Char)) ∧
    [["x".data, "y".data]] ≠ ([] : List (List (List Char))) :=
  tables_nonempty_and_dangling_dropped.1 "| A | B |\n| --- | --- |\n| x | y |\nend"
    ["A".data, "B".data] [["x".data, "y".data]] (by decide)

theorem findClose2_decomp {a b : Char} : ∀ {s inn post : List Char},
    findClose2 a b s = some (inn, post) → s = inn ++ a :: b :: post := by
  intro s
  induction s with
  | nil => intro inn post h; cases h
  | cons x xs ih =>
    intro inn post h
    simp only [findClose2] at h
    split at h
    case isTrue hs =>
      obtain ⟨t, ht⟩ := lstartsWith_iff.mp hs
      injection h with h'
      injection h' with h1 h2
      subst h1
      injection ht with hx hxs
      subst hx; subst hxs
      subst h2
      rfl
    case isFalse hs =>
      split at h
      case h_1 i p heq =>
        injection h with h'
        injection h' with h1 h2
        subst h1; subst h2
        rw [ih heq]
        rfl
      case h_2 => cases h

theorem findClose2_none {a b : Char} : ∀ {s : List Char},
    findClose2 a b s = none → ∀ u v, s ≠ u ++ a :: b :: v := by
  intro s
  induction s with
  | nil =>
    intro _ u v hne
    cases u <;> cases hne
  | cons x xs ih =>
    intro h u v hne
    simp only [findClose2] at h
    split at h
    case isTrue hs => cases h
    case isFalse hs =>
      split at h
      case h_1 => cases h
      case h_2 heq =>
        cases u with
        | nil =>
          injection hne with hx hxs
          have hT : lstartsWith (x :: xs) [a, b] = true := by
            rw [hx, hxs]
            simp [lstartsWith, lstartsWithAux]
          exact hs hT
        | cons w u' =>
          injection hne with hx hxs
          exact ih heq u' v hxs

theorem findClose2_isSome {a b : Char} {s u v : List Char}
    (h : s = u ++ a :: b :: v) : findClose2 a b s ≠ none :=
  fun hn => findClose2_none hn u v h

theorem findRegion_decomp : ∀ {s pre inn post : List Char} {m : Bool},
    findRegion s = some (pre, m, inn, post) →
    s = pre ++ markerChars m ++ inn ++ markerChars m ++ post := by
  intro s
  induction s with
  | nil => intro pre inn post m h; cases h
  | cons x xs ih =>
    intro pre inn post m h
    simp only [findRegion] at h
    split at h
    case isTrue hs =>
      obtain ⟨t, ht⟩ := lstartsWith_iff.mp hs
      have ht' : x :: xs = '*' :: '*' :: t := by simpa using ht
      injection ht' with hx hxs
      subst hx; subst hxs
      split at h
      case h_1 i p heq =>
        injection h with h'
        injection h' with h1 h'
        injection h' with h2 h'
        injection h' with h3 h4
        subst h1; subst h2; subst h3; subst h4
        have hdec := findClose2_decomp heq
        simp only [List.tail_cons] at hdec
        rw [show markerChars true = ['*', '*'] from rfl]
        simpa using hdec
      case h_2 heq =>
        split at h
        case h_1 p' m' i' q' heq2 =>
          injection h with h'
          injection h' with h1 h'
          injection h' with h2 h'
          injection h' with h3 h4
          subst h1; subst h2; subst h3; subst h4
          simpa using congrArg (List.cons '*') (ih heq2)
        case h_2 => cases h
    case isFalse hs =>
      split at h
      case isTrue hs2 =>
        obtain ⟨t, ht⟩ := lstartsWith_iff.mp hs2
        have ht' : x :: xs = '_' :: '_' :: t := by simpa using ht
        injection ht' with hx hxs
        subst hx; subst hxs
        split at h
        case h_1 i p heq =>
          injection h with h'
          injection h' with h1 h'
          injection h' with h2 h'
          injection h' with h3 h4
          subst h1; subst h2; subst h3; subst h4
          have hdec := findClose2_decomp heq
          simp only [List.tail_cons] at hdec
          rw [show markerChars false = ['_', '_'] from rfl]
          simpa using hdec
        case h_2 heq =>
          split at h
          case h_1 p' m' i' q' heq2 =>
            injection h with h'
            injection h' with h1 h'
            injection h' with h2 h'
            injection h' with h3 h4
            subst h1; subst h2; subst h3; subst h4
            simpa using congrArg (List.cons '_') (ih heq2)
          case h_2 => cases h
      case isFalse hs2 =>
        split at h
        case h_1 p' m' i' q' heq2 =>
          injection h with h'
          injection h' with h1 h'
          injection h' with h2 h'
          injection h' with h3 h4
          subst h1; subst h2; subst h3; subst h4
          simpa using congrArg (List.cons x) (ih heq2)
        case h_2 => cases h

theorem markerChars_length (m : Bool) : (markerChars m).length = 2 := by
  cases m <;> rfl

theorem findRegion_post_length {s pre inn post : List Char} {m : Bool}
    (h : findRegion s = some (pre, m, inn, post)) :
    s.length = pre.length + inn.length + post.length + 4 := by
  have := congrArg List.length (findRegion_decomp h)
  simp [List.length_append, markerChars_length] at this
  omega

theorem lincludes_iff {p : List Char} : ∀ {s : List Char},
    lincludes s p = true ↔ ∃ u v, s = u ++ p ++ v := by
  intro s
  induction s with
  | nil =>
    rw [show lincludes [] p = lstartsWith [] p from by simp [lincludes]]
    rw [lstartsWith_iff]
    constructor
    · rintro ⟨t, ht⟩
      exact ⟨[], t, by simpa using ht⟩
    · rintro ⟨u, v, huv⟩
      rcases List.append_eq_nil.mp huv.symm with ⟨h1, h2⟩
      rcases List.append_eq_nil.mp h1 with ⟨h3, h4⟩
      exact ⟨v, by simp [h4, h2]⟩
  | cons c cs ih =>
    rw [show lincludes (c :: cs) p = (lstartsWith (c :: cs) p || lincludes cs p)
        from by simp [lincludes]]
    rw [Bool.or_eq_true, lstartsWith_iff, ih]
    constructor
    · rintro (⟨t, ht⟩ | ⟨u, v, huv⟩)
      · exact ⟨[], t, by simpa using ht⟩
      · exact ⟨c :: u, v, by simp [huv]⟩
    · rintro ⟨u, v, huv⟩
      cases u with
      | nil => exact Or.inl ⟨v, by simpa using huv⟩
      | cons w u' =>
        injection huv with h1 h2
        exact Or.inr ⟨u', v, h2⟩

theorem lendsWith_iff {s p : List Char} :
    lendsWith s p = true ↔ ∃ w, s = w ++ p := by
  unfold lendsWith
  rw [lstartsWith_iff]
  constructor
  · rintro ⟨t, ht⟩
    refine ⟨t.reverse, ?_⟩
    have := congrArg List.reverse ht
    simpa using this
  · rintro ⟨w, rfl⟩
    exact ⟨w.reverse, by simp⟩

theorem lstartsWith_two (x y a b : Char) (l : List Char) :
    lstartsWith (x :: y :: l) [a, b] = ((x == a) && (y == b)) := by
  simp [lstartsWith, lstartsWithAux, Bool.and_assoc]

theorem findRegion_single (c : Char) : findRegion [c] = none := by
  simp [findRegion, lstartsWith, lstartsWithAux]

/-- One-step unfolding of `findRegion` on a non-empty list. -/
theorem findRegion_cons_eq (x : Char) (xs : List Char) :
    findRegion (x :: xs) =
      (if lstartsWith (x :: xs) ['*', '*'] then
        match findClose2 '*' '*' xs.tail with
        | some (inn, post) => some ([], true, inn, post)
        | none =>
          match findRegion xs with
          | some (pre, m, inn, post) => some (x :: pre, m, inn, post)
          | none => none
      else if lstartsWith (x :: xs) ['_', '_'] then
        match findClose2 '_' '_' xs.tail with
        | some (inn, post) => some ([], false, inn, post)
        | none =>
          match findRegion xs with
          | some (pre, m, inn, post) => some (x :: pre, m, inn, post)
          | none => none
      else
        match findRegion xs with
        | some (pre, m, inn, post) => some (x :: pre, m, inn, post)
        | none => none) := rfl

/-- When neither alternative matches at the current position,
`findRegion` advances one character. -/
theorem findRegion_advance {x : Char} {xs : List Char}
    (h1 : lstartsWith (x :: xs) ['*', '*'] = true →
      findClose2 '*' '*' xs.tail = none)
    (h2 : lstartsWith (x :: xs) ['_', '_'] = true →
      findClose2 '_' '_' xs.tail = none) :
    findRegion (x :: xs) =
      match findRegion xs with
      | some (pre, m, inn, post) => some (x :: pre, m, inn, post)
      | none => none := by
  rw [findRegion_cons_eq]
  by_cases hc1 : lstartsWith (x :: xs) ['*', '*'] = true
  · rw [if_pos hc1, h1 hc1]
  · rw [if_neg hc1]
    by_cases hc2 : lstartsWith (x :: xs) ['_', '_'] = true
    · rw [if_pos hc2, h2 hc2]
    · rw [if_neg hc2]

/-- The text before the leftmost regex match contains no complete
delimited region of its own: `findRegion` returns the leftmost match. -/
theorem findRegion_pre_none : ∀ {s pre inn post : List Char} {m : Bool},
    findRegion s = some (pre, m, inn, post) → findRegion pre = none := by
  intro s
  induction s with
  | nil => intro pre inn post m h; cases h
  | cons x xs ih =>
    intro pre inn post m h
    simp only [findRegion] at h
    split at h
    case isTrue hs =>
      obtain ⟨t, ht⟩ := lstartsWith_iff.mp hs
      have ht' : x :: xs = '*' :: '*' :: t := by simpa using ht
      injection ht' with hx hxs
      subst hx; subst hxs
      simp only [List.tail_cons] at h
      split at h
      case h_1 i p heq =>
        injection h with h'
        injection h' with h1 h'
        subst h1
        rfl
      case h_2 heq =>
        split at h
        case h_1 p' m' i' q' heq2 =>
          injection h with h'
          injection h' with h1 h'
          injection h' with h2 h'
          injection h' with h3 h4
          subst h1; subst h2; subst h3; subst h4
          have ihp' : findRegion p' = none := ih heq2
          have hd := findRegion_decomp heq2
          cases p' with
          | nil => exact findRegion_single '*'
          | cons p0 q =>
            have hd' : '*' :: t =
                p0 :: (q ++ markerChars m' ++ i' ++ markerChars m' ++ q') := by
              simpa using hd
            injection hd' with hp0 hts
            subst hp0
            have hqnone : findClose2 '*' '*' q = none := by
              cases hq : findClose2 '*' '*' q with
              | none => rfl
              | some ip =>
                obtain ⟨i2, p2⟩ := ip
                have hq2 := findClose2_decomp hq
                exfalso
                refine findClose2_none heq i2
                  (p2 ++ markerChars m' ++ i' ++ markerChars m' ++ q') ?_
                rw [hts, hq2]
                simp
            rw [findRegion_advance
              (fun _ => by simpa using hqnone)
              (fun hcon => absurd hcon (by simp [lstartsWith_two])), ihp']
        case h_2 => cases h
    case isFalse hs =>
      split at h
      case isTrue hs2 =>
        obtain ⟨t, ht⟩ := lstartsWith_iff.mp hs2
        have ht' : x :: xs = '_' :: '_' :: t := by simpa using ht
        injection ht' with hx hxs
        subst hx; subst hxs
        simp only [List.tail_cons] at h
        split at h
        case h_1 i p heq =>
          injection h with h'
          injection h' with h1 h'
          subst h1
          rfl
        case h_2 heq =>
          split at h
          case h_1 p' m' i' q' heq2 =>
            injection h with h'
            injection h' with h1 h'
            injection h' with h2 h'
            injection h' with h3 h4
            subst h1; subst h2; subst h3; subst h4
            have ihp' : findRegion p' = none := ih heq2
            have hd := findRegion_decomp heq2
            cases p' with
            | nil => exact findRegion_single '_'
            | cons p0 q =>
              have hd' : '_' :: t =
                  p0 :: (q ++ markerChars m' ++ i' ++ markerChars m' ++ q') := by
                simpa using hd
              injection hd' with hp0 hts
              subst hp0
              have hqnone : findClose2 '_' '_' q = none := by
                cases hq : findClose2 '_' '_' q with
                | none => rfl
                | some ip =>
                  obtain ⟨i2, p2⟩ := ip
                  have hq2 := findClose2_decomp hq
                  exfalso
                  refine findClose2_none heq i2
                    (p2 ++ markerChars m' ++ i' ++ markerChars m' ++ q') ?_
                  rw [hts, hq2]
                  simp
              rw [findRegion_advance
                (fun hcon => absurd hcon (by simp [lstartsWith_two]))
                (fun _ => by simpa using hqnone), ihp']
          case h_2 => cases h
      case isFalse hs2 =>
        split at h
        case h_1 p' m' i' q' heq2 =>
          injection h with h'
          injection h' with h1 h'
          injection h' with h2 h'
          injection h' with h3 h4
          subst h1; subst h2; subst h3; subst h4
          have ihp' : findRegion p' = none := ih heq2
          have hd := findRegion_decomp heq2
          cases p' with
          | nil => exact findRegion_single x
          | cons p0 q =>
            have hxs0 : xs =
                p0 :: (q ++ markerChars m' ++ i' ++ markerChars m' ++ q') := by
              simpa using hd
            rw [hxs0, lstartsWith_two] at hs hs2
            have e1 : lstartsWith (x :: p0 :: q) ['*', '*'] = false := by
              rw [lstartsWith_two]
              simpa using hs
            have e2 : lstartsWith (x :: p0 :: q) ['_', '_'] = false := by
              rw [lstartsWith_two]
              simpa using hs2
            rw [findRegion_advance
              (fun hcon => absurd hcon (by simp [e1]))
              (fun hcon => absurd hcon (by simp [e2])), ihp']
        case h_2 => cases h

/-- An unmatched split part that both starts and ends with the same
two-character marker can only be the marker itself or the
three-character overlap (`**`/`***`, `__`/`___`): anything longer would
contain a complete region and would have been matched. -/
theorem unmatched_both_ends {c : Char} (hc : c = '*' ∨ c = '_')
    {p : List Char} (hn : findRegion p = none)
    (hstart : lstartsWith p [c, c] = true)
    (hend : lendsWith p [c, c] = true) :
    p = [c, c] ∨ p = [c, c, c] := by
  obtain ⟨t, ht0⟩ := lstartsWith_iff.mp hstart
  have ht : p = c :: c :: t := by simpa using ht0
  subst ht
  obtain ⟨w, hw⟩ := lendsWith_iff.mp hend
  cases t with
  | nil => exact Or.inl rfl
  | cons d t2 =>
    cases t2 with
    | nil =>
      cases w with
      | nil =>
        injection hw with _ hw2
        injection hw2 with _ hw3
        cases hw3
      | cons e w1 =>
        cases w1 with
        | nil =>
          injection hw with _ hw2
          injection hw2 with _ hw3
          injection hw3 with hd _
          subst hd
          exact Or.inr rfl
        | cons e2 w2 =>
          injection hw with _ hw2
          injection hw2 with _ hw3
          exfalso
          have hlen := congrArg List.length hw3
          simp only [List.append_eq, List.length_append, List.length_cons,
            List.length_nil] at hlen
          omega
    | cons d2 t3 =>
      exfalso
      cases w with
      | nil =>
        injection hw with _ hw2
        injection hw2 with _ hw3
        cases hw3
      | cons e1 w1 =>
        cases w1 with
        | nil =>
          injection hw with _ hw2
          injection hw2 with _ hw3
          injection hw3 with _ hw4
          cases hw4
        | cons e2 w2 =>
          injection hw with h1 hw2
          injection hw2 with h2 hw3
          subst h1; subst h2
          rw [List.append_eq] at hw3
          rw [hw3] at hn
          rcases hc with rfl | rfl
          · have hc1 : lstartsWith ('*' :: '*' :: (w2 ++ ['*', '*'])) ['*', '*'] = true := by
              simp [lstartsWith_two]
            rw [findRegion_cons_eq, if_pos hc1] at hn
            simp only [List.tail_cons] at hn
            cases hfc : findClose2 '*' '*' (w2 ++ ['*', '*']) with
            | none => exact findClose2_isSome (u := w2) (v := ([] : List Char)) (by simp) hfc
            | some ip =>
              obtain ⟨i3, p3⟩ := ip
              rw [hfc] at hn
              simp at hn
          · have hc0 : lstartsWith ('_' :: '_' :: (w2 ++ ['_', '_'])) ['*', '*'] = false := by
              simp [lstartsWith_two]
            have hc1 : lstartsWith ('_' :: '_' :: (w2 ++ ['_', '_'])) ['_', '_'] = true := by
              simp [lstartsWith_two]
            rw [findRegion_cons_eq, if_neg (by simp [hc0]), if_pos hc1] at hn
            simp only [List.tail_cons] at hn
            cases hfc : findClose2 '_' '_' (w2 ++ ['_', '_']) with
            | none => exact findClose2_isSome (u := w2) (v := ([] : List Char)) (by simp) hfc
            | some ip =>
              obtain ⟨i3, p3⟩ := ip
              rw [hfc] at hn
              simp at hn

/-- A part on which the regex found no match keeps its text verbatim
through `partToSpan`, unless it is the pathological `***` / `___`
(where the JS `substring` argument swap loses a character). -/
theorem partToSpan_text_unmatched {p : List Char}
    (hn : findRegion p = none)
    (h3 : p ≠ ['*', '*', '*']) (h3' : p ≠ ['_', '_', '_']) :
    (partToSpan p).text = p := by
  unfold partToSpan
  split
  case isTrue hb =>
    rcases Bool.and_eq_true_iff.mp hb with ⟨hstart, hend⟩
    rcases unmatched_both_ends (Or.inl rfl) hn hstart hend with rfl | rfl
    · decide
    · exact absurd rfl h3
  case isFalse hb =>
    split
    case isTrue hb2 =>
      rcases Bool.and_eq_true_iff.mp hb2 with ⟨hstart, hend⟩
      rcases unmatched_both_ends (Or.inr rfl) hn hstart hend with rfl | rfl
      · decide
      · exact absurd rfl h3'
    case isFalse => rfl

theorem take_drop_mid (a mid b : List Char) :
    ((a ++ mid ++ b).take (a.length + mid.length)).drop a.length = mid := by
  rw [show a.length + mid.length = (a ++ mid).length by simp,
    List.take_left, List.drop_left]

/-- A matched region part (markers included) maps to a span whose text
is exactly the inner text: `substring(2, length - 2)` strips the two
markers. -/
theorem partToSpan_region_text (m : Bool) (inn : List Char) :
    (partToSpan (markerChars m ++ inn ++ markerChars m)).text = inn := by
  have key : ∀ c : Char, c = '*' ∨ c = '_' →
      (partToSpan ([c, c] ++ inn ++ [c, c])).text = inn := by
    intro c hc
    have hsh : ([c, c] ++ inn ++ [c, c] : List Char) =
        c :: c :: (inn ++ [c, c]) := by simp
    rw [hsh]
    have hstart : lstartsWith (c :: c :: (inn ++ [c, c])) [c, c] = true := by
      rw [lstartsWith_two]
      simp
    have hend : lendsWith (c :: c :: (inn ++ [c, c])) [c, c] = true :=
      lendsWith_iff.mpr ⟨c :: c :: inn, by simp⟩
    have hl : (c :: c :: (inn ++ [c, c]) : List Char).length - 2 =
        2 + inn.length := by
      simp [List.length_append]
      omega
    have hjs : jsSubstring (c :: c :: (inn ++ [c, c])) 2
        ((c :: c :: (inn ++ [c, c])).length - 2) = inn := by
      rw [hl]
      unfold jsSubstring
      rw [Nat.min_eq_left (by omega), Nat.max_eq_right (by omega)]
      have := take_drop_mid [c, c] inn [c, c]
      simpa using this
    rcases hc with rfl | rfl
    · unfold partToSpan
      rw [if_pos (by simp [hstart, hend])]
      exact hjs
    · have hstar : lstartsWith ('_' :: '_' :: (inn ++ ['_', '_'])) ['*', '*'] = false := by
        rw [lstartsWith_two]
        simp
      unfold partToSpan
      rw [if_neg (by simp [hstar]), if_pos (by simp [hstart, hend])]
      exact hjs
  cases m
  · exact key '_' (Or.inr rfl)
  · exact key '*' (Or.inl rfl)

/-- Core of the span-concatenation invariant, by induction on the
fuel of the regex split. -/
theorem splitFmt_strip_aux : ∀ (fuel : Nat) (s : List Char),
    s.length ≤ fuel →
    (∀ p ∈ splitFmtAux fuel s, p ≠ ['*', '*', '*'] ∧ p ≠ ['_', '_', '_']) →
    ((splitFmtAux fuel s).map fun q => (partToSpan q).text).flatten =
      stripDelimsAux fuel s := by
  intro fuel
  induction fuel with
  | zero =>
    intro s hlen hparts
    have hs : s = [] := List.length_eq_zero.mp (Nat.le_zero.mp hlen)
    subst hs
    decide
  | succ fuel ih =>
    intro s hlen hparts
    cases hr : findRegion s with
    | none =>
      have hsplit : splitFmtAux (fuel + 1) s = [s] := by
        simp only [splitFmtAux, hr]
      have hstrip : stripDelimsAux (fuel + 1) s = s := by
        simp only [stripDelimsAux, hr]
      rw [hsplit, hstrip]
      have hps := hparts s (by rw [hsplit]; exact List.mem_singleton_self s)
      simp only [List.map_cons, List.map_nil, List.flatten_cons,
        List.flatten_nil, List.append_nil]
      exact partToSpan_text_unmatched hr hps.1 hps.2
    | some r =>
      obtain ⟨pre, m, inn, post⟩ := r
      have hsplit : splitFmtAux (fuel + 1) s =
          pre :: (markerChars m ++ inn ++ markerChars m) ::
            splitFmtAux fuel post := by
        simp only [splitFmtAux, hr]
      have hstrip : stripDelimsAux (fuel + 1) s =
          pre ++ inn ++ stripDelimsAux fuel post := by
        simp only [stripDelimsAux, hr]
      rw [hsplit, hstrip]
      have hlen2 : post.length ≤ fuel := by
        have := findRegion_post_length hr
        omega
      have hpartsp : ∀ p ∈ splitFmtAux fuel post,
          p ≠ ['*', '*', '*'] ∧ p ≠ ['_', '_', '_'] := by
        intro p hp
        exact hparts p (by
          rw [hsplit]
          exact List.mem_cons_of_mem _ (List.mem_cons_of_mem _ hp))
      have hpre := hparts pre (by rw [hsplit]; exact List.mem_cons_self _ _)
      have hprenone := findRegion_pre_none hr
      simp only [List.map_cons, List.flatten_cons]
      rw [partToSpan_text_unmatched hprenone hpre.1 hpre.2,
        partToSpan_region_text, ih post hlen2 hpartsp]
      simp [List.append_assoc]

/-- Claim C7 (amended): for every line the converter classifies as a
paragraph (converter lines contain no newline) in which the delimiter
split leaves no unmatched three-character marker run (`***` or `___`)
as a segment, the concatenation of the emitted spans' text fields, in
order, reconstructs the original line with the matched `**` / `__`
delimiter pairs stripped; no text is lost or reordered.  (Without that
proviso the JS `substring(2, length - 2)` argument swap turns an
unmatched `***` segment into `*`, losing text.) -/
theorem span_concat_reconstructs (line : List Char)
    (_hnl : ('\n' : Char) ∉ line)
    (hparts : ∀ p ∈ splitFmt line, p ≠ ['*', '*', '*'] ∧ p ≠ ['_', '_', '_']) :
    spanTextJoin (spansOfLine line) = stripDelims line := by
  unfold spansOfLine
  split
  case isTrue hinc =>
    unfold spanTextJoin splitFmt stripDelims
    rw [List.map_map]
    exact splitFmt_strip_aux line.length line le_rfl hparts
  case isFalse hninc =>
    have hnone : findRegion line = none := by
      cases hfr : findRegion line with
      | none => rfl
      | some r =>
        obtain ⟨pre, m, inn, post⟩ := r
        exfalso
        have hdec := findRegion_decomp hfr
        have hinc2 : lincludes line (markerChars m) = true :=
          lincludes_iff.mpr ⟨pre, inn ++ markerChars m ++ post, by rw [hdec]; simp⟩
        cases m
        · exact hninc (by simp only [Bool.or_eq_true]; exact Or.inr hinc2)
        · exact hninc (by simp only [Bool.or_eq_true]; exact Or.inl hinc2)
    have hstrip : ∀ f, stripDelimsAux f line = line := by
      intro f
      cases f with
      | zero => rfl
      | succ n => simp [stripDelimsAux, hnone]
    rw [show stripDelims line = line from hstrip line.length]
    simp [spanTextJoin]

/-- Claim C7 witness: the spec's own inline-span example line. -/
theorem span_concat_reconstructs_witness :
    spanTextJoin (spansOfLine "Revenue grew **40%** last __quarter__".data) =
      stripDelims "Revenue grew **40%** last __quarter__".data :=
  span_concat_reconstructs _ (by decide) (by decide)

theorem splitOnChar_ne_nil (sep : Char) : ∀ l : List Char, splitOnChar sep l ≠ [] := by
  intro l
  induction l with
  | nil => simp [splitOnChar]
  | cons c rest ih =>
    unfold splitOnChar
    split
    · simp
    · split
      · simp
      · simp

theorem splitOnChar_cons_sep (sep : Char) (r : List Char) :
    splitOnChar sep (sep :: r) = [] :: splitOnChar sep r := by
  simp [splitOnChar]

theorem splitOnChar_cons_ne {sep c : Char} (h : c ≠ sep) (rest : List Char) :
    splitOnChar sep (c :: rest) =
      (match splitOnChar sep rest with
      | [] => [[c]]
      | l :: ls => (c :: l) :: ls) := by
  conv_lhs => unfold splitOnChar
  rw [if_neg h]

theorem splitOnChar_append {sep : Char} : ∀ {l : List Char} (r : List Char),
    (∀ c ∈ l, c ≠ sep) →
    splitOnChar sep (l ++ r) = (splitOnChar sep r).modifyHead (l ++ ·) := by
  intro l
  induction l with
  | nil =>
    intro r _
    cases hs : splitOnChar sep r with
    | nil => simp [hs]
    | cons s0 srest => simp [hs]
  | cons c l' ih =>
    intro r hl
    have hc : c ≠ sep := hl c (List.mem_cons_self c l')
    have hl' : ∀ x ∈ l', x ≠ sep := fun x hx => hl x (List.mem_cons_of_mem c hx)
    rw [List.cons_append, splitOnChar_cons_ne hc, ih r hl']
    cases hs : splitOnChar sep r with
    | nil => exact absurd hs (splitOnChar_ne_nil sep r)
    | cons s0 srest => simp [hs]

theorem splitOnChar_line {sep : Char} {l : List Char} (r : List Char)
    (hl : ∀ c ∈ l, c ≠ sep) :
    splitOnChar sep (l ++ sep :: r) = l :: splitOnChar sep r := by
  rw [splitOnChar_append (sep :: r) hl, splitOnChar_cons_sep]
  simp

theorem splitOnChar_no_sep {sep : Char} {l : List Char}
    (hl : ∀ c ∈ l, c ≠ sep) :
    splitOnChar sep l = [l] := by
  have := @splitOnChar_append sep l ([] : List Char) hl
  simpa [splitOnChar] using this

theorem ltrim_cons_ws {c : Char} (h : c.isWhitespace = true) (l : List Char) :
    ltrim (c :: l) = ltrim l := by
  unfold ltrim
  rw [List.dropWhile_cons_of_pos h]

theorem ltrim_append_ws {c : Char} (h : c.isWhitespace = true) (l : List Char) :
    ltrim (l ++ [c]) = ltrim l := by
  unfold ltrim
  rw [List.dropWhile_append]
  split
  case isTrue he =>
    rw [List.isEmpty_iff] at he
    rw [he]
    simp [List.dropWhile_cons_of_pos h, List.dropWhile_nil]
  case isFalse he =>
    rw [List.reverse_append]
    simp only [List.reverse_cons, List.reverse_nil, List.nil_append,
      List.singleton_append]
    rw [List.dropWhile_cons_of_pos h]

/-- Trimming fixes a string that starts and ends with a pipe. -/
theorem ltrim_pipe_wrap (mid : List Char) :
    ltrim ('|' :: (mid ++ ['|'])) = '|' :: (mid ++ ['|']) := by
  unfold ltrim
  rw [List.dropWhile_cons_of_neg (by decide)]
  rw [show (('|' :: (mid ++ ['|'])) : List Char).reverse =
    '|' :: (mid.reverse ++ ['|']) by simp]
  rw [List.dropWhile_cons_of_neg (by decide)]
  simp

theorem isEmpty_false_of_ne_nil {l : List Char} (h : l ≠ []) :
    l.isEmpty = false := by
  cases l with
  | nil => exact absurd rfl h
  | cons a l => rfl

/-- The shape of a constructed table line, as pipe–middle–pipe. -/
theorem rowLineC_shape (x y : List Char) :
    rowLineC x y =
      '|' :: ((' ' :: (x ++ ' ' :: '|' :: ' ' :: (y ++ [' ']))) ++ ['|']) := by
  simp [rowLineC]

theorem rowLineC_no_newline {x y : List Char}
    (hx : ('\n' : Char) ∉ x) (hy : ('\n' : Char) ∉ y) :
    ∀ c ∈ rowLineC x y, c ≠ '\n' := by
  intro c hc hceq
  subst hceq
  simp [rowLineC] at hc
  rcases hc with hc | hc
  · exact hx hc
  · exact hy hc

theorem ltrim_rowLineC (x y : List Char) :
    ltrim (rowLineC x y) = rowLineC x y := by
  rw [rowLineC_shape, ltrim_pipe_wrap]

/-- The cell extraction on a constructed table line `| x | y |` yields
the two trimmed cells, provided the cells contain no pipe and are
non-empty after trimming. -/
theorem cellsOf_rowLineC {x y : List Char}
    (hx : ('|' : Char) ∉ x) (hy : ('|' : Char) ∉ y)
    (hxe : ltrim x ≠ []) (hye : ltrim y ≠ []) :
    cellsOf (rowLineC x y) = [ltrim x, ltrim y] := by
  have hsplit : splitOnChar '|' (rowLineC x y) =
      [[], ' ' :: (x ++ [' ']), ' ' :: (y ++ [' ']), []] := by
    rw [show rowLineC x y = '|' :: ((' ' :: (x ++ [' '])) ++
        '|' :: ((' ' :: (y ++ [' '])) ++ '|' :: ([] : List Char))) by
      simp [rowLineC]]
    rw [splitOnChar_cons_sep]
    rw [splitOnChar_line _ (by
      intro c hc hceq
      subst hceq
      simp at hc
      exact hx hc)]
    rw [splitOnChar_line ([] : List Char) (by
      intro c hc hceq
      subst hceq
      simp at hc
      exact hy hc)]
    rfl
  have htx : ltrim (' ' :: (x ++ [' '])) = ltrim x := by
    rw [ltrim_cons_ws (by decide), ltrim_append_ws (by decide)]
  have hty : ltrim (' ' :: (y ++ [' '])) = ltrim y := by
    rw [ltrim_cons_ws (by decide), ltrim_append_ws (by decide)]
  have hnil : ltrim ([] : List Char) = [] := rfl
  unfold cellsOf
  rw [hsplit]
  simp only [List.filter, htx, hty, hnil, isEmpty_false_of_ne_nil hxe,
    isEmpty_false_of_ne_nil hye]
  simp [htx, hty]

theorem pc_table_start (hs : List (List Char)) (rs : List (List (List Char)))
    (bs : List Block) (mid : List Char) :
    processCore ⟨false, hs, rs, bs⟩ ('|' :: (mid ++ ['|'])) =
      ⟨true, cellsOf ('|' :: (mid ++ ['|'])), rs, bs⟩ := by
  have hend : lendsWith ('|' :: (mid ++ ['|'])) ['|'] = true :=
    lendsWith_iff.mpr ⟨'|' :: mid, by simp⟩
  unfold processCore
  rw [hend]
  rfl

theorem pc_table_sep (hs : List (List Char)) (rs : List (List (List Char)))
    (bs : List Block) (mid : List Char)
    (hinc : lincludes ('|' :: (mid ++ ['|'])) ['-', '-', '-'] = true) :
    processCore ⟨true, hs, rs, bs⟩ ('|' :: (mid ++ ['|'])) =
      ⟨true, hs, rs, bs⟩ := by
  have hend : lendsWith ('|' :: (mid ++ ['|'])) ['|'] = true :=
    lendsWith_iff.mpr ⟨'|' :: mid, by simp⟩
  unfold processCore
  rw [hend, hinc]
  rfl

theorem pc_table_row (hs : List (List Char)) (rs : List (List (List Char)))
    (bs : List Block) (mid : List Char)
    (hninc : lincludes ('|' :: (mid ++ ['|'])) ['-', '-', '-'] = false) :
    processCore ⟨true, hs, rs, bs⟩ ('|' :: (mid ++ ['|'])) =
      ⟨true, hs, rs ++ [cellsOf ('|' :: (mid ++ ['|']))], bs⟩ := by
  have hend : lendsWith ('|' :: (mid ++ ['|'])) ['|'] = true :=
    lendsWith_iff.mpr ⟨'|' :: mid, by simp⟩
  unfold processCore
  rw [hend, hninc]
  rfl

/-- Claim C8 (amended): for every input that is a well-formed 2-column,
3-row markdown table — header row, separator row, three data rows,
every cell non-empty after trimming, cells containing neither `|` nor a
newline, and (the proviso the counterexample forces) no data row
containing the substring `---` — followed by end of input or by a
single non-pipe line, the converter outputs exactly one `Table` block,
with `headers.length == 2` and `rows.length == 3`, each row having
exactly 2 cells, with cells and rows in original source order and no
re-sorting.  (A data row containing `---` would be skipped as a
separator row, so without the proviso the table can lose rows.) -/
theorem table_roundtrip (h1 h2 a b c d e f : List Char)
    (g1 : goodCell h1) (g2 : goodCell h2) (ga : goodCell a) (gb : goodCell b)
    (gc : goodCell c) (gd : goodCell d) (ge : goodCell e) (gf : goodCell f)
    (sab : lincludes (rowLineC a b) ['-', '-', '-'] = false)
    (scd : lincludes (rowLineC c d) ['-', '-', '-'] = false)
    (sef : lincludes (rowLineC e f) ['-', '-', '-'] = false) :
    (tablesOf (convertChars (tableInputC h1 h2 a b c d e f)) =
      [Block.table [ltrim h1, ltrim h2]
        [[ltrim a, ltrim b], [ltrim c, ltrim d], [ltrim e, ltrim f]]]) ∧
    (∀ L : List Char, ('\n' : Char) ∉ L → lstartsWith (ltrim L) ['|'] = false →
      tablesOf (convertChars (tableInputC h1 h2 a b c d e f ++ '\n' :: L)) =
        [Block.table [ltrim h1, ltrim h2]
          [[ltrim a, ltrim b], [ltrim c, ltrim d], [ltrim e, ltrim f]]]) := by
  have hsep_trim : ltrim ('|' :: " --- | --- |".data) =
      '|' :: " --- | --- |".data := by decide
  have step1 : processCore initState (rowLineC h1 h2) =
      ⟨true, [ltrim h1, ltrim h2], [], []⟩ := by
    unfold initState
    rw [rowLineC_shape, pc_table_start, ← rowLineC_shape,
      cellsOf_rowLineC g1.1 g2.1 g1.2.2 g2.2.2]
  have step2 : processCore ⟨true, [ltrim h1, ltrim h2], [], []⟩
      ('|' :: " --- | --- |".data) = ⟨true, [ltrim h1, ltrim h2], [], []⟩ := by
    rw [show ('|' :: " --- | --- |".data : List Char) =
      '|' :: (" --- | --- ".data ++ ['|']) from by decide]
    exact pc_table_sep _ _ _ _ (by decide)
  have step3 : processCore ⟨true, [ltrim h1, ltrim h2], [], []⟩ (rowLineC a b) =
      ⟨true, [ltrim h1, ltrim h2], [[ltrim a, ltrim b]], []⟩ := by
    rw [rowLineC_shape,
      pc_table_row _ _ _ _ (by rw [← rowLineC_shape]; exact sab),
      ← rowLineC_shape, cellsOf_rowLineC ga.1 gb.1 ga.2.2 gb.2.2]
    rfl
  have step4 : processCore ⟨true, [ltrim h1, ltrim h2],
      [[ltrim a, ltrim b]], []⟩ (rowLineC c d) =
      ⟨true, [ltrim h1, ltrim h2], [[ltrim a, ltrim b], [ltrim c, ltrim d]], []⟩ := by
    rw [rowLineC_shape,
      pc_table_row _ _ _ _ (by rw [← rowLineC_shape]; exact scd),
      ← rowLineC_shape, cellsOf_rowLineC gc.1 gd.1 gc.2.2 gd.2.2]
    rfl
  have step5 : processCore ⟨true, [ltrim h1, ltrim h2],
      [[ltrim a, ltrim b], [ltrim c, ltrim d]], []⟩ (rowLineC e f) =
      ⟨true, [ltrim h1, ltrim h2],
        [[ltrim a, ltrim b], [ltrim c, ltrim d], [ltrim e, ltrim f]], []⟩ := by
    rw [rowLineC_shape,
      pc_table_row _ _ _ _ (by rw [← rowLineC_shape]; exact sef),
      ← rowLineC_shape, cellsOf_rowLineC ge.1 gf.1 ge.2.2 gf.2.2]
    rfl
  constructor
  · have hlines : splitOnChar '\n' (tableInputC h1 h2 a b c d e f) =
        [rowLineC h1 h2, '|' :: " --- | --- |".data, rowLineC a b,
          rowLineC c d, rowLineC e f] := by
      unfold tableInputC
      rw [splitOnChar_line _ (rowLineC_no_newline g1.2.1 g2.2.1),
        splitOnChar_line _ (by decide),
        splitOnChar_line _ (rowLineC_no_newline ga.2.1 gb.2.1),
        splitOnChar_line _ (rowLineC_no_newline gc.2.1 gd.2.1),
        splitOnChar_no_sep (rowLineC_no_newline ge.2.1 gf.2.1)]
    unfold convertChars
    rw [hlines]
    simp only [List.foldl_cons, List.foldl_nil, processLine]
    simp only [ltrim_rowLineC, hsep_trim]
    rw [step1, step2, step3, step4, step5]
    rfl
  · intro L hLn hLp
    have hshape : tableInputC h1 h2 a b c d e f ++ '\n' :: L =
        rowLineC h1 h2 ++ '\n' :: (('|' :: " --- | --- |".data) ++ '\n' ::
          (rowLineC a b ++ '\n' ::
            (rowLineC c d ++ '\n' :: (rowLineC e f ++ '\n' :: L)))) := by
      unfold tableInputC
      simp [List.append_assoc]
    have hlinesL : splitOnChar '\n' (tableInputC h1 h2 a b c d e f ++ '\n' :: L) =
        [rowLineC h1 h2, '|' :: " --- | --- |".data, rowLineC a b,
          rowLineC c d, rowLineC e f, L] := by
      rw [hshape]
      rw [splitOnChar_line _ (rowLineC_no_newline g1.2.1 g2.2.1),
        splitOnChar_line _ (by decide),
        splitOnChar_line _ (rowLineC_no_newline ga.2.1 gb.2.1),
        splitOnChar_line _ (rowLineC_no_newline gc.2.1 gd.2.1),
        splitOnChar_line _ (rowLineC_no_newline ge.2.1 gf.2.1),
        splitOnChar_no_sep (by intro c hc hceq; subst hceq; exact hLn hc)]
    unfold convertChars
    rw [hlinesL]
    simp only [List.foldl_cons, List.foldl_nil, processLine]
    simp only [ltrim_rowLineC, hsep_trim]
    rw [step1, step2, step3, step4, step5]
    by_cases hc0 : lstartsWith (ltrim L) ['#', ' '] = true
    · obtain ⟨t, ht⟩ := lstartsWith_iff.mp hc0
      rw [ht]
      rfl
    by_cases hc1 : lstartsWith (ltrim L) ['#', '#', ' '] = true
    · obtain ⟨t, ht⟩ := lstartsWith_iff.mp hc1
      rw [ht]
      rfl
    by_cases hc2 : lstartsWith (ltrim L) ['#', '#', '#', ' '] = true
    · obtain ⟨t, ht⟩ := lstartsWith_iff.mp hc2
      rw [ht]
      rfl
    have hb0 : lstartsWith (ltrim L) ['#', ' '] = false := by simpa using hc0
    have hb1 : lstartsWith (ltrim L) ['#', '#', ' '] = false := by simpa using hc1
    have hb2 : lstartsWith (ltrim L) ['#', '#', '#', ' '] = false := by
      simpa using hc2
    by_cases hemp : ltrim L = []
    · rw [hemp]
      rfl
    · have hpc : processCore ⟨true, [ltrim h1, ltrim h2],
          [[ltrim a, ltrim b], [ltrim c, ltrim d], [ltrim e, ltrim f]], []⟩
          (ltrim L) =
          ⟨false, [], [],
            [Block.table [ltrim h1, ltrim h2]
              [[ltrim a, ltrim b], [ltrim c, ltrim d], [ltrim e, ltrim f]],
             Block.paragraph (spansOfLine (ltrim L))]⟩ := by
        unfold processCore
        rw [hb0, hb1, hb2, hLp, isEmpty_false_of_ne_nil hemp]
        rfl
      rw [hpc]
      rfl

/-- Claim C8 witness: a concrete well-formed 2-column, 3-row table,
checked both at end of input and with a trailing non-pipe line. -/
theorem table_roundtrip_witness :
    tablesOf (convertChars (tableInputC "Brand".data "Type".data "Dior".data
        "Cash".data "Chanel".data "Voucher".data "Fendi".data "Gift".data)) =
      [Block.table ["Brand".data, "Type".data]
        [["Dior".data, "Cash".data], ["Chanel".data, "Voucher".data],
          ["Fendi".data, "Gift".data]]] ∧
    tablesOf (convertChars (tableInputC "Brand".data "Type".data "Dior".data
        "Cash".data "Chanel".data "Voucher".data "Fendi".data "Gift".data ++
        '\n' :: "End of table".data)) =
      [Block.table ["Brand".data, "Type".data]
        [["Dior".data, "Cash".data], ["Chanel".data, "Voucher".data],
          ["Fendi".data, "Gift".data]]] := by
  have h := table_roundtrip "Brand".data "Type".data "Dior".data "Cash".data
    "Chanel".data "Voucher".data "Fendi".data "Gift".data
    ⟨by decide, by decide, by decide⟩ ⟨by decide, by decide, by decide⟩
    ⟨by decide, by decide, by decide⟩ ⟨by decide, by decide, by decide⟩
    ⟨by decide, by decide, by decide⟩ ⟨by decide, by decide, by decide⟩
    ⟨by decide, by decide, by decide⟩ ⟨by decide, by decide, by decide⟩
    (by decide) (by decide) (by decide)
  constructor
  · rw [h.1]
    decide
  · rw [h.2 "End of table".data (by decide) (by decide)]
    decide
